import Mathlib

/- Shallow embedding of the fractal generator in `src/main.rs`.

   Modelling conventions:
   * Rust `f64` values are modelled as exact rationals (`ℚ`); `f64` arithmetic
     becomes exact field arithmetic.  `Complex::abs`, which takes a square
     root, is modelled as a real number via `Real.sqrt`; the escape test
     `z.abs() <= 2.0` is decidable because it is equivalent to the rational
     inequality `re^2 + im^2 ≤ 4`.
   * `usize` is `ℕ`, `i32` is `ℤ`, a `u8` value is a `ℕ` and the Rust cast
     `as u8` is `% 256`.  `Vec<i32>` is `List ℤ`.
   * The two `assert!` calls in `Image::set_color` are modelled by an `Option`
     result: `none` is a panic ("Tried setting a color in an invalid pixel.").
   * Console printing and PNG encoding (`Image::save`) are I/O glue outside
     the modelled core; `generate` returns the computed `Image` instead of
     saving it, and drops the `filename` argument.
   * The `while` loop of `generate` is translated with an explicit fuel
     argument: `fuel` stands for `MAX_ITERATIONS - iterations`, so the
     source's test `iterations < MAX_ITERATIONS` is exactly `fuel ≠ 0`.
   * For claims about IEEE special values, the auxiliary type `F` models an
     `f64` as a finite rational or `inf` / `-inf` / `NaN`, with IEEE sign and
     NaN-propagation rules for `+`, `-`, `*` and the `==` of the derived
     `PartialEq` (under which `NaN` is unequal to itself).  Rounding and
     overflow of finite values are not modelled; they do not affect the
     commutativity and equality questions this type is used for. -/

namespace Fractal

/- `Image` models `struct Image { width: usize, height: usize, data: Vec<i32> }`. -/
structure Image where
  width : ℕ
  height : ℕ
  data : List ℤ
deriving DecidableEq

/- Packing of one pixel, from `Image::set_color`:
   `(r as i32) << 16 | (g as i32) << 8 | (b as i32)`. -/
def pack (r g b : ℕ) : ℤ :=
  ((r <<< 16) ||| (g <<< 8) ||| b : ℕ)

/- `Image::new`: `vec![0; width * height]` followed by a no-op `resize`. -/
def Image.new (width height : ℕ) : Image :=
  ⟨width, height, List.replicate (width * height) 0⟩

/- `Image::set_color`.  The two `assert!`s are the `if`; a failing assertion
   is the `none` result.  On success the cell at `y * width + x` is set. -/
def Image.set_color (img : Image) (x y : ℕ) (r g b : ℕ) : Option Image :=
  if x < img.width ∧ y < img.height then
    some ⟨img.width, img.height, img.data.set (y * img.width + x) (pack r g b)⟩
  else
    none

/- `struct Complex { re: f64, im: f64 }` with the derived exact component-wise
   equality (`PartialEq`), over the exact-rational model of `f64`. -/
structure Complex where
  re : ℚ
  im : ℚ
deriving DecidableEq

def Complex.new (re im : ℚ) : Complex :=
  ⟨re, im⟩

/- `impl Add for Complex`. -/
def Complex.add (a b : Complex) : Complex :=
  Complex.new (a.re + b.re) (a.im + b.im)

/- `impl Sub for Complex`. -/
def Complex.sub (a b : Complex) : Complex :=
  Complex.new (a.re - b.re) (a.im - b.im)

/- `impl Mul for Complex`: `(a*c - b*d, a*d + b*c)`. -/
def Complex.mul (s rhs : Complex) : Complex :=
  Complex.new (s.re * rhs.re - s.im * rhs.im) (s.re * rhs.im + s.im * rhs.re)

/- `Complex::abs`: `self.re.powi(2).add(self.im.powi(2)).sqrt()`. -/
noncomputable def Complex.abs (z : Complex) : ℝ :=
  Real.sqrt ((z.re : ℝ) ^ 2 + (z.im : ℝ) ^ 2)

/- The escape test `z.abs() <= 2.0` is decidable: it holds exactly when
   `re^2 + im^2 ≤ 4` as rationals. -/
instance Complex.decAbsLeTwo (z : Complex) : Decidable (Complex.abs z ≤ 2) :=
  decidable_of_iff ((z.re ^ 2 + z.im ^ 2 : ℚ) ≤ 4)
    (by
      rw [Complex.abs, Real.sqrt_le_left (by norm_num : (0 : ℝ) ≤ 2)]
      rw [show ((2 : ℝ) ^ 2) = ((4 : ℚ) : ℝ) by norm_num]
      constructor
      · intro h
        exact_mod_cast h
      · intro h
        exact_mod_cast h)

/- `const MAX_ITERATIONS: usize = 255 + 255 + 255;` -/
def MAX_ITERATIONS : ℕ := 255 + 255 + 255

/- `let c = Complex::new(-0.4f64, 0.5868f64);`, the fixed Julia constant. -/
def juliaC : Complex := Complex.new (-0.4) 0.5868

/- The per-pixel `while` loop:
   `while z.abs() <= 2_f64 && iterations < MAX_ITERATIONS { z = z*z + c; iterations += 1; }`.
   `fuel = MAX_ITERATIONS - iterations`, so `fuel = 0` is `iterations < MAX_ITERATIONS`
   failing; the returned value is the counter at loop exit. -/
def escapeLoop (z : Complex) (iterations : ℕ) : ℕ → ℕ
  | 0 => iterations
  | fuel + 1 =>
    if z.abs ≤ 2 then
      escapeLoop ((z.mul z).add juliaC) (iterations + 1) fuel
    else
      iterations

/- The escape count of one seed `z`: the loop started at `iterations = 0`. -/
def escapeCount (z : Complex) : ℕ :=
  escapeLoop z 0 MAX_ITERATIONS

/- `fn map(v, from_a, from_b, to_a, to_b)`:
   `to_a + (to_b - to_a) / (from_b - from_a) * (v - from_a)`.
   Over `ℚ`, division by zero yields `0` where IEEE would yield NaN/inf; all
   theorems about degenerate inputs therefore carry a nonzero-denominator
   hypothesis where IEEE and `ℚ` could differ. -/
def map (v from_a from_b to_a to_b : ℚ) : ℚ :=
  to_a + (to_b - to_a) / (from_b - from_a) * (v - from_a)

/- The tri-band coloring of `generate` (lines 149-161): `as u8` is `% 256`. -/
def bandColor (iterations : ℕ) : ℕ × ℕ × ℕ :=
  if iterations ≤ 255 then
    (iterations % 256, 0, 0)
  else if iterations ≤ 255 + 255 then
    (255, (iterations - 255) % 256, 0)
  else
    (255, 255, (iterations - 255 - 255) % 256)

/- The escape count of pixel `(x, y)`: seed `z = Complex::new(a, b)` with
   `a = map(x, 0, width, from_x, to_x)` and `b = map(y, 0, height, from_y, to_y)`. -/
def pixelIterations (from_x to_x from_y to_y : ℚ) (width height x y : ℕ) : ℕ :=
  escapeCount (Complex.new (map (x : ℚ) 0 (width : ℚ) from_x to_x)
                           (map (y : ℚ) 0 (height : ℚ) from_y to_y))

/- The RGB triple written for pixel `(x, y)`. -/
def pixelRGB (from_x to_x from_y to_y : ℚ) (width height x y : ℕ) : ℕ × ℕ × ℕ :=
  bandColor (pixelIterations from_x to_x from_y to_y width height x y)

/- The packed value stored for pixel `(x, y)`. -/
def pixelPacked (from_x to_x from_y to_y : ℚ) (width height x y : ℕ) : ℤ :=
  pack (pixelRGB from_x to_x from_y to_y width height x y).1
       (pixelRGB from_x to_x from_y to_y width height x y).2.1
       (pixelRGB from_x to_x from_y to_y width height x y).2.2

/- The inner loop `for y in 0..height` of `generate`, for a fixed column `x`,
   unrolled from the top: `innerLoop n` processes `y = 0, 1, ..., n - 1`. -/
def innerLoop (from_x to_x from_y to_y : ℚ) (width height x : ℕ) : ℕ → Image → Option Image
  | 0, img => some img
  | y + 1, img =>
    (innerLoop from_x to_x from_y to_y width height x y img).bind fun im =>
      im.set_color x y (pixelRGB from_x to_x from_y to_y width height x y).1
        (pixelRGB from_x to_x from_y to_y width height x y).2.1
        (pixelRGB from_x to_x from_y to_y width height x y).2.2

/- The outer loop `for x in 0..width` of `generate`: `outerLoop m` processes
   columns `x = 0, 1, ..., m - 1`, each via the full inner loop. -/
def outerLoop (from_x to_x from_y to_y : ℚ) (width height : ℕ) : ℕ → Image → Option Image
  | 0, img => some img
  | x + 1, img =>
    (outerLoop from_x to_x from_y to_y width height x img).bind fun im =>
      innerLoop from_x to_x from_y to_y width height x height im

/- `fn generate(from_x, to_x, from_y, to_y, width, height, ..)` up to the final
   `img.save(filename)`: the computed image (or `none` for an assertion failure). -/
def generate (from_x to_x from_y to_y : ℚ) (width height : ℕ) : Option Image :=
  outerLoop from_x to_x from_y to_y width height width (Image.new width height)

/- Row-major variant of the inner loop (for the traversal-order claim):
   fixed row `y`, `innerLoopRM n` processes `x = 0, 1, ..., n - 1`. -/
def innerLoopRM (from_x to_x from_y to_y : ℚ) (width height y : ℕ) : ℕ → Image → Option Image
  | 0, img => some img
  | x + 1, img =>
    (innerLoopRM from_x to_x from_y to_y width height y x img).bind fun im =>
      im.set_color x y (pixelRGB from_x to_x from_y to_y width height x y).1
        (pixelRGB from_x to_x from_y to_y width height x y).2.1
        (pixelRGB from_x to_x from_y to_y width height x y).2.2

/- Row-major variant of the outer loop: `outerLoopRM m` processes rows
   `y = 0, 1, ..., m - 1`. -/
def outerLoopRM (from_x to_x from_y to_y : ℚ) (width height : ℕ) : ℕ → Image → Option Image
  | 0, img => some img
  | y + 1, img =>
    (outerLoopRM from_x to_x from_y to_y width height y img).bind fun im =>
      innerLoopRM from_x to_x from_y to_y width height y width im

/- Row-major traversal of the same per-pixel computation as `generate`. -/
def generateRowMajor (from_x to_x from_y to_y : ℚ) (width height : ℕ) : Option Image :=
  outerLoopRM from_x to_x from_y to_y width height height (Image.new width height)

/- Total number of executed iterations of the `z = z*z + c` step over a whole
   generation: the sum of all per-pixel escape counts. -/
def totalIterations (from_x to_x from_y to_y : ℚ) (width height : ℕ) : ℕ :=
  ((List.range width).map fun x =>
    ((List.range height).map fun y =>
      pixelIterations from_x to_x from_y to_y width height x y).sum).sum

/- Model of a single IEEE `f64` value for special-value claims: a finite
   rational, `+inf`, `-inf`, or `NaN`. -/
inductive F where
  | fin (q : ℚ)
  | inf
  | ninf
  | nan
deriving DecidableEq

/- IEEE negation. -/
def F.neg : F → F
  | .fin q => .fin (-q)
  | .inf => .ninf
  | .ninf => .inf
  | .nan => .nan

/- IEEE addition on values (finite rounding/overflow not modelled). -/
def F.add : F → F → F
  | .nan, _ => .nan
  | _, .nan => .nan
  | .fin a, .fin b => .fin (a + b)
  | .fin _, .inf => .inf
  | .fin _, .ninf => .ninf
  | .inf, .fin _ => .inf
  | .ninf, .fin _ => .ninf
  | .inf, .inf => .inf
  | .ninf, .ninf => .ninf
  | .inf, .ninf => .nan
  | .ninf, .inf => .nan

/- IEEE subtraction: `a - b = a + (-b)` holds exactly in IEEE. -/
def F.sub (a b : F) : F :=
  a.add b.neg

/- IEEE multiplication on values (finite rounding/overflow not modelled). -/
def F.mul : F → F → F
  | .nan, _ => .nan
  | _, .nan => .nan
  | .fin a, .fin b => .fin (a * b)
  | .fin a, .inf => if 0 < a then .inf else if a < 0 then .ninf else .nan
  | .fin a, .ninf => if 0 < a then .ninf else if a < 0 then .inf else .nan
  | .inf, .fin b => if 0 < b then .inf else if b < 0 then .ninf else .nan
  | .ninf, .fin b => if 0 < b then .ninf else if b < 0 then .inf else .nan
  | .inf, .inf => .inf
  | .inf, .ninf => .ninf
  | .ninf, .inf => .ninf
  | .ninf, .ninf => .inf

/- IEEE `==` on `f64`: `NaN` is unequal to everything, itself included. -/
def F.beq : F → F → Bool
  | .fin a, .fin b => decide (a = b)
  | .inf, .inf => true
  | .ninf, .ninf => true
  | _, _ => false

/- The `Complex` struct over the special-value model of `f64`. -/
structure ComplexF where
  re : F
  im : F
deriving DecidableEq

/- `impl Mul for Complex` over `F`: `(a*c - b*d, a*d + b*c)`. -/
def ComplexF.mul (s rhs : ComplexF) : ComplexF :=
  ⟨(s.re.mul rhs.re).sub (s.im.mul rhs.im), (s.re.mul rhs.im).add (s.im.mul rhs.re)⟩

/- The derived `PartialEq` of `Complex` over `F`: component-wise IEEE `==`. -/
def ComplexF.beq (a b : ComplexF) : Bool :=
  a.re.beq b.re && a.im.beq b.im

/- Arithmetic facts about the row-major cell index `y * width + x`. -/
theorem cell_index_lt (width height x y : ℕ) (hx : x < width) (hy : y < height) :
    y * width + x < width * height := by
  calc y * width + x < y * width + width := Nat.add_lt_add_left hx _
    _ = (y + 1) * width := by ring
    _ ≤ height * width := Nat.mul_le_mul_right width (Nat.succ_le_of_lt hy)
    _ = width * height := Nat.mul_comm _ _

theorem cell_mod_div (width x y : ℕ) (hx : x < width) :
    (y * width + x) % width = x ∧ (y * width + x) / width = y := by
  have hw : 0 < width := Nat.lt_of_le_of_lt (Nat.zero_le x) hx
  constructor
  · rw [Nat.mul_comm, Nat.mul_add_mod, Nat.mod_eq_of_lt hx]
  · rw [Nat.mul_comm, Nat.mul_add_div hw, Nat.div_eq_of_lt hx, Nat.add_zero]

theorem index_decomp (width x n j : ℕ) (hx : x < width) :
    (j % width = x ∧ j / width < n + 1) ↔
      ((j % width = x ∧ j / width < n) ∨ j = n * width + x) := by
  constructor
  · rintro ⟨he, hq⟩
    rcases Nat.lt_succ_iff_lt_or_eq.mp hq with h | h
    · exact Or.inl ⟨he, h⟩
    · refine Or.inr ?_
      conv_lhs => rw [← Nat.div_add_mod j width]
      rw [h, he, Nat.mul_comm]
  · rintro (⟨he, hq⟩ | rfl)
    · exact ⟨he, Nat.lt_succ_of_lt hq⟩
    · exact ⟨(cell_mod_div width x n hx).1, by
        rw [(cell_mod_div width x n hx).2]; exact Nat.lt_succ_self n⟩

theorem index_decomp_rm (width y n j : ℕ) (hn : n < width) :
    (j / width = y ∧ j % width < n + 1) ↔
      ((j / width = y ∧ j % width < n) ∨ j = y * width + n) := by
  constructor
  · rintro ⟨hq, he⟩
    rcases Nat.lt_succ_iff_lt_or_eq.mp he with h | h
    · exact Or.inl ⟨hq, h⟩
    · refine Or.inr ?_
      conv_lhs => rw [← Nat.div_add_mod j width]
      rw [hq, h, Nat.mul_comm]
  · rintro (⟨hq, he⟩ | rfl)
    · exact ⟨hq, Nat.lt_succ_of_lt he⟩
    · exact ⟨(cell_mod_div width n y hn).2, by
        rw [(cell_mod_div width n y hn).1]; exact Nat.lt_succ_self n⟩

theorem div_lt_height (width height j : ℕ) (hj : j < width * height) :
    j / width < height := by
  have hw : 0 < width := by
    rcases Nat.eq_zero_or_pos width with h | h
    · subst h; simp at hj
    · exact h
  rw [Nat.div_lt_iff_lt_mul hw, Nat.mul_comm]
  exact hj

/- A fresh buffer has exactly `width * height` cells. -/
theorem Image.new_data_length (width height : ℕ) :
    (Image.new width height).data.length = width * height :=
  List.length_replicate ..

/- In-range `set_color` succeeds and sets the cell `y * width + x`. -/
theorem Image.set_color_of_lt (img : Image) (x y r g b : ℕ)
    (hx : x < img.width) (hy : y < img.height) :
    img.set_color x y r g b =
      some ⟨img.width, img.height, img.data.set (y * img.width + x) (pack r g b)⟩ := by
  rw [Image.set_color, if_pos ⟨hx, hy⟩]

/- Buffer contents after the inner loop has processed `y = 0, ..., n - 1` of
   column `x`: exactly the cells `y * width + x` hold the pixel value, all
   other cells are untouched. -/
theorem innerLoop_spec (from_x to_x from_y to_y : ℚ) (width height x n : ℕ) :
    n ≤ height → x < width → ∀ img : Image, img.width = width → img.height = height →
      img.data.length = width * height →
      ∃ d : List ℤ,
        innerLoop from_x to_x from_y to_y width height x n img = some ⟨width, height, d⟩ ∧
        d.length = width * height ∧
        ∀ j : ℕ, j < width * height →
          d[j]? =
            if j % width = x ∧ j / width < n
            then some (pixelPacked from_x to_x from_y to_y width height x (j / width))
            else img.data[j]? := by
  induction n with
  | zero =>
    intro _ _ img hw hh hl
    obtain ⟨w0, h0, d0⟩ := img
    have hw' : w0 = width := hw
    have hh' : h0 = height := hh
    have hl' : d0.length = width * height := hl
    subst hw'
    subst hh'
    exact ⟨d0, by simp [innerLoop], hl', fun j _ => by simp⟩
  | succ n ih =>
    intro hn hx img hw hh hl
    obtain ⟨d, hd, hdl, hdc⟩ := ih (Nat.le_of_succ_le hn) hx img hw hh hl
    have hnh : n < height := Nat.lt_of_lt_of_le (Nat.lt_succ_self n) hn
    have hcell : n * width + x < width * height := cell_index_lt width height x n hx hnh
    refine ⟨d.set (n * width + x)
      (pixelPacked from_x to_x from_y to_y width height x n), ?_, ?_, ?_⟩
    · rw [innerLoop, hd]
      exact Image.set_color_of_lt ⟨width, height, d⟩ x n _ _ _ hx hnh
    · rw [List.length_set]; exact hdl
    · intro j hj
      by_cases hje : j = n * width + x
      · subst hje
        rw [List.getElem?_set_self (by rw [hdl]; exact hcell)]
        rw [if_pos ⟨(cell_mod_div width x n hx).1, by
          rw [(cell_mod_div width x n hx).2]; exact Nat.lt_succ_self n⟩]
        rw [(cell_mod_div width x n hx).2]
      · rw [List.getElem?_set_ne fun h => hje h.symm]
        rw [hdc j hj]
        by_cases hc : j % width = x ∧ j / width < n
        · rw [if_pos hc, if_pos ⟨hc.1, Nat.lt_succ_of_lt hc.2⟩]
        · rw [if_neg hc, if_neg fun hcc => ?_]
          rcases (index_decomp width x n j hx).mp hcc with h | h
          · exact hc h
          · exact hje h

/- Buffer contents after the outer loop has processed columns `x = 0, ..., m - 1`:
   exactly the cells whose column index `j % width` is below `m` hold their
   pixel value. -/
theorem outerLoop_spec (from_x to_x from_y to_y : ℚ) (width height m : ℕ) :
    m ≤ width → ∀ img : Image, img.width = width → img.height = height →
      img.data.length = width * height →
      ∃ d : List ℤ,
        outerLoop from_x to_x from_y to_y width height m img = some ⟨width, height, d⟩ ∧
        d.length = width * height ∧
        ∀ j : ℕ, j < width * height →
          d[j]? =
            if j % width < m
            then some (pixelPacked from_x to_x from_y to_y width height (j % width) (j / width))
            else img.data[j]? := by
  induction m with
  | zero =>
    intro _ img hw hh hl
    obtain ⟨w0, h0, d0⟩ := img
    have hw' : w0 = width := hw
    have hh' : h0 = height := hh
    have hl' : d0.length = width * height := hl
    subst hw'
    subst hh'
    exact ⟨d0, by simp [outerLoop], hl', fun j _ => by simp⟩
  | succ m ihm =>
    intro hm img hw hh hl
    obtain ⟨d, hd, hdl, hdc⟩ := ihm (Nat.le_of_succ_le hm) img hw hh hl
    have hmw : m < width := Nat.lt_of_lt_of_le (Nat.lt_succ_self m) hm
    obtain ⟨d2, hd2, hdl2, hdc2⟩ :=
      innerLoop_spec from_x to_x from_y to_y width height m height (le_refl height) hmw
        ⟨width, height, d⟩ rfl rfl hdl
    refine ⟨d2, ?_, hdl2, ?_⟩
    · rw [outerLoop, hd]
      exact hd2
    · intro j hj
      rw [hdc2 j hj]
      have hjdiv : j / width < height := div_lt_height width height j hj
      by_cases hje : j % width = m
      · rw [if_pos ⟨hje, hjdiv⟩, if_pos (by rw [hje]; exact Nat.lt_succ_self m), hje]
      · rw [if_neg fun hcc => hje hcc.1, hdc j hj]
        by_cases hc : j % width < m
        · rw [if_pos hc, if_pos (Nat.lt_succ_of_lt hc)]
        · rw [if_neg hc,
            if_neg fun hcc => hc (Nat.lt_of_le_of_ne (Nat.lt_succ_iff.mp hcc) hje)]

/- Full characterization of `generate`: it succeeds, the buffer has
   `width * height` cells, and cell `j` holds the packed color of pixel
   `(j % width, j / width)`. -/
theorem generate_spec (from_x to_x from_y to_y : ℚ) (width height : ℕ) :
    ∃ d : List ℤ,
      generate from_x to_x from_y to_y width height = some ⟨width, height, d⟩ ∧
      d.length = width * height ∧
      ∀ j : ℕ, j < width * height →
        d[j]? = some (pixelPacked from_x to_x from_y to_y width height
          (j % width) (j / width)) := by
  obtain ⟨d, hd, hdl, hdc⟩ :=
    outerLoop_spec from_x to_x from_y to_y width height width (le_refl width)
      (Image.new width height) rfl rfl (by simp [Image.new])
  refine ⟨d, hd, hdl, fun j hj => ?_⟩
  have hw : 0 < width := by
    rcases Nat.eq_zero_or_pos width with h | h
    · subst h; simp at hj
    · exact h
  rw [hdc j hj, if_pos (Nat.mod_lt j hw)]

/- Row-major inner loop: after `x = 0, ..., n - 1` of row `y`, exactly the
   cells `y * width + x` hold the pixel value. -/
theorem innerLoopRM_spec (from_x to_x from_y to_y : ℚ) (width height y n : ℕ) :
    n ≤ width → y < height → ∀ img : Image, img.width = width → img.height = height →
      img.data.length = width * height →
      ∃ d : List ℤ,
        innerLoopRM from_x to_x from_y to_y width height y n img = some ⟨width, height, d⟩ ∧
        d.length = width * height ∧
        ∀ j : ℕ, j < width * height →
          d[j]? =
            if j / width = y ∧ j % width < n
            then some (pixelPacked from_x to_x from_y to_y width height (j % width) y)
            else img.data[j]? := by
  induction n with
  | zero =>
    intro _ _ img hw hh hl
    obtain ⟨w0, h0, d0⟩ := img
    have hw' : w0 = width := hw
    have hh' : h0 = height := hh
    have hl' : d0.length = width * height := hl
    subst hw'
    subst hh'
    exact ⟨d0, by simp [innerLoopRM], hl', fun j _ => by simp⟩
  | succ n ih =>
    intro hn hy img hw hh hl
    obtain ⟨d, hd, hdl, hdc⟩ := ih (Nat.le_of_succ_le hn) hy img hw hh hl
    have hnw : n < width := Nat.lt_of_lt_of_le (Nat.lt_succ_self n) hn
    have hcell : y * width + n < width * height := cell_index_lt width height n y hnw hy
    refine ⟨d.set (y * width + n)
      (pixelPacked from_x to_x from_y to_y width height n y), ?_, ?_, ?_⟩
    · rw [innerLoopRM, hd]
      exact Image.set_color_of_lt ⟨width, height, d⟩ n y _ _ _ hnw hy
    · rw [List.length_set]; exact hdl
    · intro j hj
      by_cases hje : j = y * width + n
      · subst hje
        rw [List.getElem?_set_self (by rw [hdl]; exact hcell)]
        rw [if_pos ⟨(cell_mod_div width n y hnw).2, by
          rw [(cell_mod_div width n y hnw).1]; exact Nat.lt_succ_self n⟩]
        rw [(cell_mod_div width n y hnw).1]
      · rw [List.getElem?_set_ne fun h => hje h.symm]
        rw [hdc j hj]
        by_cases hc : j / width = y ∧ j % width < n
        · rw [if_pos hc, if_pos ⟨hc.1, Nat.lt_succ_of_lt hc.2⟩]
        · rw [if_neg hc, if_neg fun hcc => ?_]
          rcases (index_decomp_rm width y n j hnw).mp hcc with h | h
          · exact hc h
          · exact hje h

/- Row-major outer loop: after rows `y = 0, ..., m - 1`, exactly the cells
   whose row index `j / width` is below `m` hold their pixel value. -/
theorem outerLoopRM_spec (from_x to_x from_y to_y : ℚ) (width height m : ℕ) :
    m ≤ height → ∀ img : Image, img.width = width → img.height = height →
      img.data.length = width * height →
      ∃ d : List ℤ,
        outerLoopRM from_x to_x from_y to_y width height m img = some ⟨width, height, d⟩ ∧
        d.length = width * height ∧
        ∀ j : ℕ, j < width * height →
          d[j]? =
            if j / width < m
            then some (pixelPacked from_x to_x from_y to_y width height (j % width) (j / width))
            else img.data[j]? := by
  induction m with
  | zero =>
    intro _ img hw hh hl
    obtain ⟨w0, h0, d0⟩ := img
    have hw' : w0 = width := hw
    have hh' : h0 = height := hh
    have hl' : d0.length = width * height := hl
    subst hw'
    subst hh'
    exact ⟨d0, by simp [outerLoopRM], hl', fun j _ => by simp⟩
  | succ m ihm =>
    intro hm img hw hh hl
    obtain ⟨d, hd, hdl, hdc⟩ := ihm (Nat.le_of_succ_le hm) img hw hh hl
    have hmh : m < height := Nat.lt_of_lt_of_le (Nat.lt_succ_self m) hm
    obtain ⟨d2, hd2, hdl2, hdc2⟩ :=
      innerLoopRM_spec from_x to_x from_y to_y width height m width (le_refl width) hmh
        ⟨width, height, d⟩ rfl rfl hdl
    refine ⟨d2, ?_, hdl2, ?_⟩
    · rw [outerLoopRM, hd]
      exact hd2
    · intro j hj
      rw [hdc2 j hj]
      have hw : 0 < width := by
        rcases Nat.eq_zero_or_pos width with h | h
        · subst h; simp at hj
        · exact h
      have hjmod : j % width < width := Nat.mod_lt j hw
      by_cases hje : j / width = m
      · rw [if_pos ⟨hje, hjmod⟩, if_pos (by rw [hje]; exact Nat.lt_succ_self m), hje]
      · rw [if_neg fun hcc => hje hcc.1, hdc j hj]
        by_cases hc : j / width < m
        · rw [if_pos hc, if_pos (Nat.lt_succ_of_lt hc)]
        · rw [if_neg hc,
            if_neg fun hcc => hc (Nat.lt_of_le_of_ne (Nat.lt_succ_iff.mp hcc) hje)]

/- Full characterization of the row-major traversal: same buffer as `generate`. -/
theorem generateRowMajor_spec (from_x to_x from_y to_y : ℚ) (width height : ℕ) :
    ∃ d : List ℤ,
      generateRowMajor from_x to_x from_y to_y width height = some ⟨width, height, d⟩ ∧
      d.length = width * height ∧
      ∀ j : ℕ, j < width * height →
        d[j]? = some (pixelPacked from_x to_x from_y to_y width height
          (j % width) (j / width)) := by
  obtain ⟨d, hd, hdl, hdc⟩ :=
    outerLoopRM_spec from_x to_x from_y to_y width height height (le_refl height)
      (Image.new width height) rfl rfl (by simp [Image.new])
  refine ⟨d, hd, hdl, fun j hj => ?_⟩
  rw [hdc j hj, if_pos (div_lt_height width height j hj)]

/- The loop counter grows by at most the available fuel. -/
theorem escapeLoop_le (fuel : ℕ) : ∀ (z : Complex) (iterations : ℕ),
    escapeLoop z iterations fuel ≤ iterations + fuel := by
  induction fuel with
  | zero =>
    intro z it
    simp [escapeLoop]
  | succ fuel ih =>
    intro z it
    rw [escapeLoop]
    split
    · exact le_trans (ih _ _) (by omega)
    · exact Nat.le_add_right _ _

/- Every escape count is at most `MAX_ITERATIONS`. -/
theorem escapeCount_le (z : Complex) : escapeCount z ≤ MAX_ITERATIONS := by
  have h := escapeLoop_le MAX_ITERATIONS z 0
  simpa [escapeCount] using h

/- Work bound: over a whole generation at most `width * height * MAX_ITERATIONS`
   iteration steps are executed. -/
theorem totalIterations_le (from_x to_x from_y to_y : ℚ) (width height : ℕ) :
    totalIterations from_x to_x from_y to_y width height ≤
      width * height * MAX_ITERATIONS := by
  rw [totalIterations]
  have hinner : ∀ x : ℕ,
      ((List.range height).map fun y =>
        pixelIterations from_x to_x from_y to_y width height x y).sum ≤
        height * MAX_ITERATIONS := by
    intro x
    have h := List.sum_le_card_nsmul
      ((List.range height).map fun y =>
        pixelIterations from_x to_x from_y to_y width height x y)
      MAX_ITERATIONS ?_
    · simpa [smul_eq_mul] using h
    · intro a ha
      simp only [List.mem_map] at ha
      obtain ⟨yy, _, rfl⟩ := ha
      exact escapeCount_le _
  have h := List.sum_le_card_nsmul
    ((List.range width).map fun x =>
      ((List.range height).map fun y =>
        pixelIterations from_x to_x from_y to_y width height x y).sum)
    (height * MAX_ITERATIONS) ?_
  · calc _ ≤ _ := h
      _ = width * height * MAX_ITERATIONS := by
        simp [smul_eq_mul, Nat.mul_assoc]
  · intro a ha
    simp only [List.mem_map] at ha
    obtain ⟨xx, _, rfl⟩ := ha
    exact hinner xx

/- An empty axis means no iteration step is ever executed. -/
theorem totalIterations_zero (from_x to_x from_y to_y : ℚ) (width height : ℕ)
    (h : width = 0 ∨ height = 0) :
    totalIterations from_x to_x from_y to_y width height = 0 := by
  rcases h with h | h <;> subst h <;> simp [totalIterations]

/- With a zero-height inner loop, the outer loop changes nothing. -/
theorem outerLoop_height_zero (from_x to_x from_y to_y : ℚ) (width m : ℕ) :
    ∀ img : Image, outerLoop from_x to_x from_y to_y width 0 m img = some img := by
  induction m with
  | zero =>
    intro img
    simp [outerLoop]
  | succ m ih =>
    intro img
    rw [outerLoop, ih img]
    simp [innerLoop]

/- IEEE multiplication commutes at the value level, NaN and infinities included. -/
theorem F.mul_commutative (a b : F) : a.mul b = b.mul a := by
  cases a <;> cases b <;> simp [F.mul, mul_comm]

/- IEEE addition commutes at the value level, NaN and infinities included. -/
theorem F.add_commutative (a b : F) : a.add b = b.add a := by
  cases a <;> cases b <;> simp [F.add, add_comm]

/- IEEE `==` is reflexive exactly on non-NaN values. -/
theorem F.beq_self_of_ne_nan (a : F) (h : a ≠ F.nan) : a.beq a = true := by
  cases a <;> simp [F.beq] <;> simp at h

/- Complex multiplication over the exact model is commutative as a value map. -/
theorem complex_mul_comm (a b : Complex) : a.mul b = b.mul a := by
  simp only [Complex.mul, Complex.new, Complex.mk.injEq]
  exact ⟨by ring, by ring⟩

/- Complex multiplication over the IEEE special-value model is commutative as a
   value map (both products are built from the same component values). -/
theorem complexF_mul_comm (a b : ComplexF) : a.mul b = b.mul a := by
  rw [ComplexF.mul, ComplexF.mul, F.mul_commutative a.re b.re,
    F.mul_commutative a.im b.im, F.mul_commutative a.re b.im,
    F.mul_commutative a.im b.re, F.add_commutative]

set_option maxRecDepth 40000

/-- C1: for every escape count `n` produced by `generate` (so `n ≤ 765`), the
RGB triple of the tri-band palette is: `n ∈ [0,255]` gives `(n, 0, 0)`,
`n ∈ [256,510]` gives `(255, n - 255, 0)`, `n ∈ [511,765]` gives
`(255, 255, n - 510)`; in particular `256 ↦ (255,1,0)`, `510 ↦ (255,255,0)`,
`765 ↦ (255,255,255)`, and no channel ever exceeds 255. -/
theorem C1_color_banding (n : ℕ) (h : n ≤ 765) :
    (n ≤ 255 → bandColor n = (n, 0, 0)) ∧
    (256 ≤ n → n ≤ 510 → bandColor n = (255, n - 255, 0)) ∧
    (511 ≤ n → bandColor n = (255, 255, n - 510)) ∧
    bandColor 256 = (255, 1, 0) ∧
    bandColor 510 = (255, 255, 0) ∧
    bandColor 765 = (255, 255, 255) ∧
    (bandColor n).1 ≤ 255 ∧ (bandColor n).2.1 ≤ 255 ∧ (bandColor n).2.2 ≤ 255 := by
  refine ⟨fun h1 => ?_, fun h1 h2 => ?_, fun h1 => ?_,
    by decide, by decide, by decide, ?_, ?_, ?_⟩
  · rw [bandColor, if_pos h1, Nat.mod_eq_of_lt (by omega)]
  · rw [bandColor, if_neg (by omega), if_pos (by omega : n ≤ 255 + 255),
      Nat.mod_eq_of_lt (by omega)]
  · rw [bandColor, if_neg (by omega), if_neg (by omega),
      Nat.mod_eq_of_lt (by omega), show n - 255 - 255 = n - 510 by omega]
  · rw [bandColor]
    split_ifs <;> simp <;> omega
  · rw [bandColor]
    split_ifs <;> simp <;> omega
  · rw [bandColor]
    split_ifs <;> simp <;> omega

theorem C1_color_banding_witness :
    bandColor 256 = (255, 1, 0) ∧ bandColor 100 = (100, 0, 0) :=
  ⟨(C1_color_banding 256 (by decide)).2.2.2.1,
   (C1_color_banding 100 (by decide)).1 (by decide)⟩

/-- C2: the escape loop always terminates (it is a total function of its fuel,
`MAX_ITERATIONS - iterations`), every escape count lies in `[0, 765]`
(the lower bound is inherent in `ℕ`), and a full generation performs at most
`width * height * 765` iteration steps. -/
theorem C2_iteration_bounded :
    MAX_ITERATIONS = 765 ∧
    (∀ z : Complex, escapeCount z ≤ MAX_ITERATIONS) ∧
    (∀ (from_x to_x from_y to_y : ℚ) (width height : ℕ),
      totalIterations from_x to_x from_y to_y width height ≤
        width * height * MAX_ITERATIONS) :=
  ⟨rfl, escapeCount_le, totalIterations_le⟩

/-- C4: the buffer produced by `generate` has exactly `width * height` cells,
and when `width = 0` or `height = 0` the buffer is empty and no escape
iteration step is performed at all. -/
theorem C4_buffer_size (from_x to_x from_y to_y : ℚ) (width height : ℕ) :
    ∃ d : List ℤ,
      generate from_x to_x from_y to_y width height = some ⟨width, height, d⟩ ∧
      d.length = width * height ∧
      (width = 0 ∨ height = 0 →
        d = [] ∧ totalIterations from_x to_x from_y to_y width height = 0) := by
  obtain ⟨d, hd, hdl, _⟩ := generate_spec from_x to_x from_y to_y width height
  refine ⟨d, hd, hdl, fun h0 => ⟨?_, totalIterations_zero _ _ _ _ _ _ h0⟩⟩
  apply List.eq_nil_of_length_eq_zero
  rw [hdl]
  rcases h0 with h | h <;> subst h <;> simp

theorem C4_buffer_size_witness :
    generate 0 1 0 1 0 3 = some ⟨0, 3, []⟩ ∧ totalIterations 0 1 0 1 0 3 = 0 := by
  obtain ⟨d, h1, _, h3⟩ := C4_buffer_size 0 1 0 1 0 3
  obtain ⟨hd, ht⟩ := h3 (Or.inl rfl)
  rw [hd] at h1
  exact ⟨h1, ht⟩

/-- C5 (amended): a degenerate viewport axis (`from_x = to_x`, i.e. a
zero-width OUTPUT interval of `map`) does not make `map` non-finite: as long
as the input interval is non-degenerate, `map` returns exactly the constant
bound, so the seeds are finite and escape counts are computed normally (see
the counterexample for a non-black pixel).  The only degenerate input interval
`generate` can pass to `map` is `width = 0` or `height = 0` (`from_a = 0`,
`from_b = width` or `height`), and then no pixel is processed at all: the
buffer stays empty and untouched.  No error is raised in either case. -/
theorem C5_degenerate_viewport :
    (∀ v from_a from_b t : ℚ, from_b ≠ from_a → map v from_a from_b t t = t) ∧
    (∀ (from_x to_x from_y to_y : ℚ) (height : ℕ),
      generate from_x to_x from_y to_y 0 height = some ⟨0, height, []⟩) ∧
    (∀ (from_x to_x from_y to_y : ℚ) (width : ℕ),
      generate from_x to_x from_y to_y width 0 = some ⟨width, 0, []⟩) := by
  refine ⟨fun v from_a from_b t _ => ?_, fun from_x to_x from_y to_y height => ?_,
    fun from_x to_x from_y to_y width => ?_⟩
  · simp [map]
  · simp [generate, outerLoop, Image.new]
  · rw [generate, outerLoop_height_zero]
    simp [Image.new]

theorem C5_degenerate_viewport_witness :
    map 1 0 2 3 3 = 3 ∧ generate 0 1 0 1 0 2 = some ⟨0, 2, []⟩ :=
  ⟨C5_degenerate_viewport.1 1 0 2 3 (by norm_num),
   C5_degenerate_viewport.2.1 0 1 0 1 2⟩

/-- C5 counterexample: with the degenerate viewport `from_x = to_x = 0` (and
`y` axis `[-2, 2]`, resolution 2×1) the seeds are the finite points `(0, -2)`,
which escape after one iteration, so both pixels get count 1 and color
`(1, 0, 0)` — packed `65536`, not the black `pack 0 0 0 = 0` the claim
predicts; the escape count is 1, not 0. -/
theorem C5_counterexample :
    generate 0 0 (-2) 2 2 1 = some ⟨2, 1, [65536, 65536]⟩ ∧
    pixelIterations 0 0 (-2) 2 2 1 0 0 = 1 ∧
    pack 0 0 0 = 0 ∧ (65536 : ℤ) ≠ 0 := by
  refine ⟨?_, by with_unfolding_all decide, by decide, by decide⟩
  obtain ⟨d, hd, hdl, hdc⟩ := generate_spec 0 0 (-2) 2 2 1
  have h0 : d[0]? = some (pixelPacked 0 0 (-2) 2 2 1 0 0) := by
    simpa using hdc 0 (by norm_num)
  have h1 : d[1]? = some (pixelPacked 0 0 (-2) 2 2 1 1 0) := by
    simpa using hdc 1 (by norm_num)
  have hp0 : pixelPacked 0 0 (-2) 2 2 1 0 0 = 65536 := by with_unfolding_all decide
  have hp1 : pixelPacked 0 0 (-2) 2 2 1 1 0 = 65536 := by with_unfolding_all decide
  have hde : d = [65536, 65536] := by
    apply List.ext_getElem?
    intro n
    rcases n with _ | n
    · rw [h0, hp0]
      rfl
    rcases n with _ | n
    · rw [h1, hp1]
      rfl
    · rw [List.getElem?_eq_none (by rw [hdl]; omega), List.getElem?_eq_none (by simp)]
  rw [hd, hde]

/-- C6: `generate` never trips the assertions of `set_color` — in the model,
`generate` never returns `none` (a `none` is exactly an assertion failure) —
and for every in-range pixel the buffer index `y * width + x` is in bounds. -/
theorem C6_no_assertion_failure (from_x to_x from_y to_y : ℚ) (width height : ℕ) :
    ∃ img : Image, generate from_x to_x from_y to_y width height = some img ∧
      img.data.length = width * height ∧
      ∀ x y : ℕ, x < width → y < height → y * width + x < img.data.length := by
  obtain ⟨d, hd, hdl, _⟩ := generate_spec from_x to_x from_y to_y width height
  refine ⟨⟨width, height, d⟩, hd, hdl, fun x y hx hy => ?_⟩
  show y * width + x < d.length
  rw [hdl]
  exact cell_index_lt width height x y hx hy

theorem C6_no_assertion_failure_witness :
    ∃ img : Image, generate 0 0 (-2) 2 2 1 = some img ∧
      0 * 2 + 1 < img.data.length := by
  obtain ⟨img, h1, _, h3⟩ := C6_no_assertion_failure 0 0 (-2) 2 2 1
  exact ⟨img, h1, h3 1 0 (by decide) (by decide)⟩

/-- C7: the buffer produced by `generate` is traversal-order independent: the
source's column-major loop (outer `x`, inner `y`) produces exactly the same
result as a row-major traversal of the same per-pixel computation, because
each cell depends only on its own pixel coordinates. -/
theorem C7_order_independent (from_x to_x from_y to_y : ℚ) (width height : ℕ) :
    generate from_x to_x from_y to_y width height =
      generateRowMajor from_x to_x from_y to_y width height := by
  obtain ⟨d1, hd1, hl1, hc1⟩ := generate_spec from_x to_x from_y to_y width height
  obtain ⟨d2, hd2, hl2, hc2⟩ := generateRowMajor_spec from_x to_x from_y to_y width height
  have hde : d1 = d2 := by
    apply List.ext_getElem?
    intro n
    by_cases hn : n < width * height
    · rw [hc1 n hn, hc2 n hn]
    · rw [List.getElem?_eq_none (by rw [hl1]; omega),
        List.getElem?_eq_none (by rw [hl2]; omega)]
  rw [hd1, hd2, hde]

/-- C9: on a 100×80 buffer, `set_color 15 50 255 0 127` stores the packed
value `255 <<< 16 ||| 0 <<< 8 ||| 127 = 16711807` at offset `50 * 100 + 15`. -/
theorem C9_set_color_test :
    ∃ img : Image, (Image.new 100 80).set_color 15 50 255 0 127 = some img ∧
      img.width = 100 ∧ img.height = 80 ∧
      img.data[50 * 100 + 15]? = some (pack 255 0 127) ∧
      pack 255 0 127 = 16711807 := by
  refine ⟨⟨(Image.new 100 80).width, (Image.new 100 80).height,
    (Image.new 100 80).data.set (50 * (Image.new 100 80).width + 15) (pack 255 0 127)⟩,
    Image.set_color_of_lt (Image.new 100 80) 15 50 255 0 127 (by decide) (by decide),
    rfl, rfl, ?_, by decide⟩
  refine List.getElem?_set_self ?_
  show 50 * 100 + 15 < (List.replicate (100 * 80) (0 : ℤ)).length
  rw [List.length_replicate]
  norm_num

/-- C10: an in-range `set_color` call modifies only the cell `y * width + x`:
every other cell, and the `width` and `height` fields, are unchanged. -/
theorem C10_set_color_frame (img : Image) (x y r g b : ℕ)
    (hx : x < img.width) (hy : y < img.height) :
    ∃ img' : Image, img.set_color x y r g b = some img' ∧
      img'.width = img.width ∧ img'.height = img.height ∧
      img'.data.length = img.data.length ∧
      (∀ j : ℕ, j ≠ y * img.width + x → img'.data[j]? = img.data[j]?) ∧
      (y * img.width + x < img.data.length →
        img'.data[y * img.width + x]? = some (pack r g b)) :=
  ⟨⟨img.width, img.height, img.data.set (y * img.width + x) (pack r g b)⟩,
    Image.set_color_of_lt img x y r g b hx hy, rfl, rfl, by simp,
    fun _ hj => List.getElem?_set_ne fun h => hj h.symm,
    fun hlt => List.getElem?_set_self hlt⟩

theorem C10_set_color_frame_witness :
    ∃ img' : Image, (Image.new 3 2).set_color 1 1 9 8 7 = some img' ∧
      img'.data[0]? = (Image.new 3 2).data[0]? ∧
      img'.data[1 * 3 + 1]? = some (pack 9 8 7) := by
  obtain ⟨img', h1, _, _, _, h5, h6⟩ :=
    C10_set_color_frame (Image.new 3 2) 1 1 9 8 7 (by decide) (by decide)
  exact ⟨img', h1, h5 0 (by decide), h6 (by decide)⟩

/-- C8 counterexample: over the IEEE special-value model, with
`a = (NaN, 0)` and `b = (1, 0)` the derived `==` rejects
`mul(a, b) == mul(b, a)`, because both products have NaN components and NaN
compares unequal to itself — so commutativity under `==` fails on the full
floating-point domain the claim quantifies over. -/
theorem C8_counterexample :
    ComplexF.beq
      (ComplexF.mul ⟨F.nan, F.fin 0⟩ ⟨F.fin 1, F.fin 0⟩)
      (ComplexF.mul ⟨F.fin 1, F.fin 0⟩ ⟨F.nan, F.fin 0⟩) = false := by
  with_unfolding_all decide

/-- C8 (amended): complex multiplication is commutative as a value map — over
the exact model and over the IEEE special-value model, NaN and infinities
included — and the derived component-wise `==` confirms `mul(a,b) == mul(b,a)`
exactly when no component of the product is NaN; with a NaN component `==`
returns false since NaN is unequal to itself. -/
theorem C8_mul_comm :
    (∀ a b : Complex, a.mul b = b.mul a) ∧
    (∀ a b : ComplexF, a.mul b = b.mul a) ∧
    (∀ a b : ComplexF, (a.mul b).re ≠ F.nan → (a.mul b).im ≠ F.nan →
      ComplexF.beq (a.mul b) (b.mul a) = true) := by
  refine ⟨complex_mul_comm, complexF_mul_comm, fun a b h1 h2 => ?_⟩
  rw [complexF_mul_comm b a]
  simp [ComplexF.beq, F.beq_self_of_ne_nan _ h1, F.beq_self_of_ne_nan _ h2]

theorem C8_mul_comm_witness :
    Complex.mul (Complex.new 1 2) (Complex.new 3 4) =
      Complex.mul (Complex.new 3 4) (Complex.new 1 2) ∧
    ComplexF.beq
      (ComplexF.mul ⟨F.fin 1, F.fin 2⟩ ⟨F.fin 3, F.fin 4⟩)
      (ComplexF.mul ⟨F.fin 3, F.fin 4⟩ ⟨F.fin 1, F.fin 2⟩) = true :=
  ⟨C8_mul_comm.1 (Complex.new 1 2) (Complex.new 3 4),
   C8_mul_comm.2.2 ⟨F.fin 1, F.fin 2⟩ ⟨F.fin 3, F.fin 4⟩
     (by with_unfolding_all decide) (by with_unfolding_all decide)⟩

end Fractal
